import Mathlib

/-!
Shallow embedding of the pshell process utilities (pshell/procs.py and
pshell/call.py) and proofs of the specified properties.

The process world visible through psutil is modelled as a finite table of
live processes (pid paired with optional parent pid) together with the
outcomes the environment gives to each signalling call.  Functions from the
source are translated one to one; psutil calls that can raise
NoSuchProcess / ZombieProcess / AccessDenied are modelled by outcome fields
of the world.
-/

namespace Pshell

/-- Outcome of a psutil signalling call (terminate or kill): the call either
delivers the signal, raises NoSuchProcess/ZombieProcess, or raises
AccessDenied. -/
inductive SigResult
  | ok
  | noSuchProcess
  | accessDenied
  deriving DecidableEq, Repr

/-- The process world as observed by one kill invocation: the pid of the
calling process, the table of live processes as pairs (pid, parent pid),
and the environment outcomes of terminate, of the grace period wait, and of
kill for each pid. -/
structure World where
  myPid : Nat
  table : List (Nat × Option Nat)
  termResult : Nat → SigResult
  aliveAfterWait : Nat → Bool
  killResult : Nat → SigResult

/-- Pids of live processes (keys of the process table). -/
def livePids (w : World) : List Nat := w.table.map Prod.fst

/-- Whether psutil.Process(n) succeeds: pid n is live. -/
def livePid (w : World) (n : Nat) : Bool := (livePids w).contains n

/-- Direct children of a pid in the process table. -/
def childrenOf (w : World) (pid : Nat) : List Nat :=
  (w.table.filter (fun e => e.2 == some pid)).map Prod.fst

/-- Fuel bounded descendant enumeration, modelling
proc.children(recursive=True).  Fuel of the table length suffices to reach
every descendant along an acyclic parent chain. -/
def descendants (w : World) : Nat → Nat → List Nat
  | 0, _ => []
  | fuel + 1, pid =>
    let cs := childrenOf w pid
    cs ++ cs.flatMap (fun c => descendants w fuel c)

/-- Structured log messages emitted by kill. -/
inductive LogMsg
  | pidNotFound (pid : Nat)
  | skipSelf (pid : Nat)
  | skipParent (pid : Nat)
  | sigtermSending
  | sigtermDenied (pid : Nat)
  | sigkillSending
  | sigkillDenied (pid : Nat)
  | noProcsTerminated
  | allTerminated
  deriving DecidableEq, Repr

/-- A log entry with its severity level. -/
inductive LogEntry
  | debug (m : LogMsg)
  | info (m : LogMsg)
  deriving DecidableEq, Repr

/-- An argument to kill: a raw int pid, an existing psutil.Process handle
(identified by its pid), None, or a value of any other type. -/
inductive KillArg
  | pid (n : Nat)
  | proc (p : Nat)
  | noneArg
  | invalid
  deriving DecidableEq, Repr

/-- The body of the normalization loop of kill applied to one handle:
skip the current process, skip a handle whose children call raises
NoSuchProcess, skip a parent of the current process; otherwise keep. -/
def normStep (w : World) (p : Nat) : Option Nat × List LogEntry :=
  if p = w.myPid then (none, [LogEntry.debug (LogMsg.skipSelf p)])
  else if livePid w p = false then (none, [LogEntry.debug (LogMsg.pidNotFound p)])
  else if w.myPid ∈ descendants w w.table.length p then
    (none, [LogEntry.debug (LogMsg.skipParent p)])
  else (some p, [])

/-- Accumulation step of the normalization loop: prepend the kept handle
and the log entries of the current iteration to the result of the rest of
the loop (an error from further down the loop is an error of the whole
call). -/
def consStep (op : Option Nat) (logs1 : List LogEntry) :
    Except Unit (List Nat × List LogEntry) → Except Unit (List Nat × List LogEntry)
  | Except.error e => Except.error e
  | Except.ok (ps, logs2) => Except.ok (op.toList ++ ps, logs1 ++ logs2)

/-- The first loop of kill: convert int pids to handles (skipping pids with
no live process), silently skip None, raise TypeError on any other type,
and filter out the current process and its parents. -/
def normalize (w : World) : List KillArg → Except Unit (List Nat × List LogEntry)
  | [] => Except.ok ([], [])
  | KillArg.invalid :: _ => Except.error ()
  | KillArg.noneArg :: rest => normalize w rest
  | KillArg.pid n :: rest =>
    if livePid w n then
      consStep (normStep w n).1 (normStep w n).2 (normalize w rest)
    else
      consStep none [LogEntry.debug (LogMsg.pidNotFound n)] (normalize w rest)
  | KillArg.proc p :: rest =>
    consStep (normStep w p).1 (normStep w p).2 (normalize w rest)

/-- Observable signalling events of one kill invocation. -/
inductive Event
  | sigterm (p : Nat)
  | wait
  | sigkill (p : Nat)
  deriving DecidableEq, Repr

/-- The SIGTERM loop of kill: emit a sigterm event and collect the handle
when terminate succeeds; skip silently on NoSuchProcess; log on
AccessDenied (the handle is not collected either way on failure). -/
def termPhase (w : World) : List Nat → List Event × List Nat × List LogEntry
  | [] => ([], [], [])
  | p :: rest =>
    let r := termPhase w rest
    match w.termResult p with
    | SigResult.ok => (Event.sigterm p :: r.1, p :: r.2.1, r.2.2)
    | SigResult.noSuchProcess => r
    | SigResult.accessDenied =>
      (r.1, r.2.1, LogEntry.info (LogMsg.sigtermDenied p) :: r.2.2)

/-- The SIGKILL loop of kill: emit a sigkill event when kill succeeds; skip
silently on NoSuchProcess; log on AccessDenied. -/
def killPhase (w : World) : List Nat → List Event × List LogEntry
  | [] => ([], [])
  | p :: rest =>
    let r := killPhase w rest
    match w.killResult p with
    | SigResult.ok => (Event.sigkill p :: r.1, r.2)
    | SigResult.noSuchProcess => r
    | SigResult.accessDenied => (r.1, LogEntry.info (LogMsg.sigkillDenied p) :: r.2)

/-- The graceful phase of kill: with a zero grace period it is skipped and
all handles go straight to the kill list; otherwise SIGTERM is sent to all
handles, then psutil.wait_procs keeps the survivors. -/
def gracePhase (w : World) (t : Nat) (ps : List Nat) :
    List Event × List Nat × List LogEntry :=
  if t = 0 then ([], ps, [])
  else
    ((termPhase w ps).1 ++ [Event.wait],
     ((termPhase w ps).2.1).filter (fun p => w.aliveAfterWait p),
     LogEntry.info LogMsg.sigtermSending :: (termPhase w ps).2.2)

/-- The forceful phase of kill, entered only when survivors remain. -/
def forcePhase (w : World) (ps : List Nat) : List Event × List LogEntry :=
  if ps.isEmpty then ([], [])
  else ((killPhase w ps).1, LogEntry.info LogMsg.sigkillSending :: (killPhase w ps).2)

/-- The kill function of pshell/procs.py: normalize and filter the
arguments (raising TypeError on an invalid argument before any signal is
sent), return early when nothing remains, otherwise run the graceful phase
followed by the forceful phase, and return after issuing the forceful
signals.  The result is the ordered trace of signalling events together
with the log entries. -/
def killRun (w : World) (t : Nat) (args : List KillArg) :
    Except Unit (List Event × List LogEntry) :=
  match normalize w args with
  | Except.error e => Except.error e
  | Except.ok (ps, nlogs) =>
    if ps.isEmpty then
      Except.ok ([], nlogs ++ [LogEntry.info LogMsg.noProcsTerminated])
    else
      Except.ok
        ((gracePhase w t ps).1 ++ (forcePhase w (gracePhase w t ps).2.1).1,
         nlogs ++ (gracePhase w t ps).2.2
           ++ (forcePhase w (gracePhase w t ps).2.1).2
           ++ [LogEntry.info LogMsg.allTerminated])

/-- Ancestor relation read off the process table: p is a direct or
transitive ancestor of q when a chain of parent links leads from q up
to p. -/
inductive IsAncestor (w : World) : Nat → Nat → Prop
  | direct {p q : Nat} : (q, some p) ∈ w.table → IsAncestor w p q
  | step {p r q : Nat} : (r, some p) ∈ w.table → IsAncestor w r q → IsAncestor w p q

/-- A downward chain of parent links starting below p: each element is a
child of the previous one. -/
def isChain (w : World) : Nat → List Nat → Prop
  | _, [] => True
  | p, a :: rest => (a, some p) ∈ w.table ∧ isChain w a rest

/-- The pid component of the accumulation step of normalization. -/
def consPids (op : Option Nat) : Except Unit (List Nat) → Except Unit (List Nat)
  | Except.error e => Except.error e
  | Except.ok ps => Except.ok (op.toList ++ ps)

/-- A kill argument whose target process has already exited: a pid with no
live process, a handle of a dead process other than the caller, or None. -/
def deadArg (w : World) : KillArg → Prop
  | KillArg.pid n => livePid w n = false
  | KillArg.proc p => livePid w p = false ∧ p ≠ w.myPid
  | KillArg.noneArg => True
  | KillArg.invalid => False

/-- A small concrete world used to instantiate the theorems: the caller is
pid 2, whose parent is pid 1; pid 5 is a child of the caller and pid 7 is
unrelated; every signal is accepted and every process survives the grace
period wait. -/
def demoWorld : World :=
  ⟨2, [(1, none), (2, some 1), (5, some 2), (7, none)],
   fun _ => SigResult.ok, fun _ => true, fun _ => SigResult.ok⟩

/-! Stream bridge of pshell/call.py (real_fh). -/

/-- The drain worker loop of real_fh: repeatedly read chunks of 4096 from
the read end of the pipe and write them to the destination stream, until a
read returns empty. -/
def flushLoop (dest buf : List Nat) : List Nat :=
  if h : buf = [] then dest
  else flushLoop (dest ++ buf.take 4096) (buf.drop 4096)
termination_by buf.length
decreasing_by
  simp only [List.length_drop]
  have := List.length_pos.mpr h
  omega

/-- State of one bridge session at scope exit: bytes still sitting in the
pipe, bytes already written to the destination stream, and the status of
the two pipe ends and of the drain worker. -/
structure BridgeState where
  pipeBuf : List Nat
  dest : List Nat
  writeClosed : Bool
  readClosed : Bool
  drainDone : Bool
  deriving DecidableEq, Repr

/-- Teardown actions of the finally block of real_fh, in order. -/
inductive BridgeEvent
  | closeWrite
  | joinDrain
  | closeRead
  deriving DecidableEq, Repr

/-- Closing the write end of the pipe (real_fh_out.close()). -/
def closeWriteEnd (s : BridgeState) : BridgeState := { s with writeClosed := true }

/-- Joining the drain worker (flusher.join()).  The join returns only if
the write end is already closed: otherwise the worker blocks forever on
read and the join never returns, modelled as none.  On return the worker
has drained the whole pipe into the destination stream. -/
def joinDrainWorker (s : BridgeState) : Option BridgeState :=
  if s.writeClosed then
    some { s with dest := flushLoop s.dest s.pipeBuf, pipeBuf := [], drainDone := true }
  else none

/-- Closing the read end of the pipe (real_fh_in.close()). -/
def closeReadEnd (s : BridgeState) : BridgeState := { s with readClosed := true }

/-- The finally block of real_fh: close the write end, join the drain
worker, close the read end; an exception raised by the scope body is
re-raised unchanged after the block.  Returns the ordered teardown events,
the final bridge state, and the propagated exception flag. -/
def bridgeExit (s : BridgeState) (raised : Bool) :
    Option (List BridgeEvent × BridgeState × Bool) :=
  match joinDrainWorker (closeWriteEnd s) with
  | none => none
  | some s2 =>
    some ([BridgeEvent.closeWrite, BridgeEvent.joinDrain, BridgeEvent.closeRead],
      closeReadEnd s2, raised)

/-- A writable stream as probed by real_fh: the result of fileno() (none
when the call raises), and whether the stream is binary (write of a str
raises TypeError). -/
structure FileLike where
  fdResult : Option Nat
  isBinary : Bool
  deriving DecidableEq, Repr

/-- What entering the real_fh context produces: the yielded stream, and
whether a pipe was created and a drain thread started. -/
structure RealFhEnterResult where
  yielded : Option FileLike
  pipeCreated : Bool
  threadStarted : Bool
  deriving DecidableEq, Repr

/-- The entry logic of real_fh: yield None unchanged; yield an OS backed
stream unchanged; otherwise create a pipe, start the drain thread, and
yield the write end of the pipe opened in the detected mode. -/
def realFhEnter (freshFd : Nat) (fh : Option FileLike) : RealFhEnterResult :=
  match fh with
  | none => ⟨none, false, false⟩
  | some f =>
    match f.fdResult with
    | some _ => ⟨some f, false, false⟩
    | none => ⟨some ⟨some freshFd, f.isBinary⟩, true, true⟩

/-! Command executor of pshell/call.py (_call_cmd and the call wrappers). -/

/-- A command: either a shell string or an argument vector. -/
inductive Cmd
  | str (s : String)
  | argv (l : List String)
  deriving DecidableEq, Repr

/-- The strict mode initialization prepended to shell commands in
_call_cmd. -/
def bashInit : String := "set -o errexit; set -o nounset; set -o pipefail; "

/-- The loggable representation of a command built by _call_cmd: quote the
elements of an argument vector, and redact the password when one is
configured (an empty password is falsy in Python and is not redacted). -/
def logRepr (cmd : Cmd) (obfuscatePwd : Option String) : String :=
  let base := match cmd with
    | Cmd.str s => s
    | Cmd.argv l => "\"" ++ String.intercalate "\" \"" l ++ "\""
  match obfuscatePwd with
  | none => base
  | some pwd =>
    if pwd.isEmpty then base
    else String.intercalate "XXXX" (base.splitOn pwd)

/-- The _call_cmd helper: build the log representation, and when shell mode
is requested require a string command (ValueError otherwise) and on
non Windows platforms wrap it in bash with strict failure options, turning
shell mode off.  Returns the command to execute, the shell flag, and the
logged string. -/
def callCmd (cmd : Cmd) (obfuscatePwd : Option String) (shell : Bool)
    (osIsNt : Bool) : Except String (Cmd × Bool × String) :=
  let lc := logRepr cmd obfuscatePwd
  if shell then
    match cmd with
    | Cmd.argv _ => Except.error "cmd must be a string when shell=True"
    | Cmd.str s =>
      if osIsNt then Except.ok (Cmd.str s, true, lc)
      else Except.ok (Cmd.argv ["bash", "-c", bashInit ++ s], false, lc)
  else Except.ok (cmd, shell, lc)

/-- A spawned subprocess: the argument vector or shell string actually
handed to the subprocess module, with the final shell flag. -/
structure SpawnRecord where
  cmd : Cmd
  shell : Bool
  deriving DecidableEq, Repr

/-- The call wrappers: run _call_cmd first and spawn the subprocess only on
success, so a usage error yields no spawn. -/
def callSpawn (cmd : Cmd) (obfuscatePwd : Option String) (shell : Bool)
    (osIsNt : Bool) : Except String SpawnRecord :=
  match callCmd cmd obfuscatePwd shell osIsNt with
  | Except.error e => Except.error e
  | Except.ok (c, sh, _) => Except.ok ⟨c, sh⟩

/-! Process locator of pshell/procs.py (find_procs_by_cmdline). -/

/-- A process as yielded by psutil.process_iter: pid, owning user, command
line arguments, and whether the metadata calls succeed (false models
NoSuchProcess, ZombieProcess, or AccessDenied while inspecting it). -/
structure ProcInfo where
  pid : Nat
  user : String
  cmdline : List String
  accessible : Bool
  deriving DecidableEq, Repr

/-- Python str.find(needle) != -1: substring containment, true for the
empty needle. -/
def strFind (haystack needle : String) : Bool :=
  needle.isEmpty || 2 ≤ (haystack.splitOn needle).length

/-- The inner loop over the match patterns: return the first pattern that
occurs in the command line, stopping at the first hit. -/
def firstMatch (cmdline : String) : List String → Option String
  | [] => none
  | m :: rest => if strFind cmdline m then some m else firstMatch cmdline rest

/-- The find_procs_by_cmdline loop over psutil.process_iter, taking the
match strings after environment resolution (the spec: this core receives
already resolved strings).  Inaccessible processes are skipped, processes
of other users are skipped outside Windows, and a process is appended once
when the first matching pattern is found. -/
def findProcsByCmdline (curUser : String) (isWindows : Bool)
    (pats : List String) : List ProcInfo → List ProcInfo
  | [] => []
  | p :: rest =>
    if p.accessible = false then findProcsByCmdline curUser isWindows pats rest
    else if isWindows = false && p.user != curUser then
      findProcsByCmdline curUser isWindows pats rest
    else
      match firstMatch (String.intercalate " " p.cmdline) pats with
      | some _ => p :: findProcsByCmdline curUser isWindows pats rest
      | none => findProcsByCmdline curUser isWindows pats rest

/-! Port polling of pshell/procs.py (wait_for_server). -/

/-- One socket of proc.connections(): local port and status. -/
structure Conn where
  port : Nat
  status : String
  deriving DecidableEq, Repr

/-- One iteration of the wait_for_server polling loop over one snapshot of
proc.connections(): collect the listening ports, subtract the ignored
ports, then return any remaining port when no port was requested, or the
requested port when it is in the remaining set. -/
def waitStep (port : Option Nat) (ignorePorts : List Nat) (conns : List Conn) :
    Option Nat :=
  let openPorts :=
    ((conns.filter (fun c => c.status == "LISTEN")).map Conn.port).filter
      (fun q => ignorePorts.contains q = false)
  match port with
  | none => openPorts.head?
  | some p => if openPorts.contains p then some p else none

/-- The wait_for_server polling loop over successive snapshots of the
connection set: return at the first snapshot with a match; none means the
observations ran out with the loop still polling (until TimeoutError). -/
def waitForServerRun (port : Option Nat) (ignorePorts : List Nat) :
    List (List Conn) → Option Nat
  | [] => none
  | conns :: rest =>
    match waitStep port ignorePorts conns with
    | some p => some p
    | none => waitForServerRun port ignorePorts rest

/-! Theorems. -/

/-- The drain loop writes the whole pipe buffer to the destination, in
order and without loss. -/
theorem flushLoop_eq (dest buf : List Nat) : flushLoop dest buf = dest ++ buf := by
  induction dest, buf using flushLoop.induct with
  | case1 d => simp [flushLoop]
  | case2 d b hne ih =>
    rw [flushLoop, dif_neg hne, ih, List.append_assoc, List.take_append_drop]

/-- C2: on every scope exit path of a bridge session (normal or raising),
the write end is closed first, then the drain worker is joined, then the
read end is closed, and every byte written to the pipe before exit
(already drained prefix plus still pending suffix) reaches the destination
stream before the exit returns, with no loss. -/
theorem bridge_flush_on_exit (dest0 drained pending : List Nat) (raised : Bool) :
    bridgeExit ⟨pending, dest0 ++ drained, false, false, false⟩ raised =
      some ([BridgeEvent.closeWrite, BridgeEvent.joinDrain, BridgeEvent.closeRead],
        ⟨[], dest0 ++ (drained ++ pending), true, true, true⟩, raised) := by
  simp [bridgeExit, joinDrainWorker, closeWriteEnd, closeReadEnd, flushLoop_eq,
    List.append_assoc]

/-- C9: real_fh yields None unchanged for a None input, and yields the
identical stream for a stream whose fileno() succeeds; in both cases no
pipe is created and no drain thread is started. -/
theorem real_fh_pass_through (freshFd : Nat) :
    realFhEnter freshFd none = ⟨none, false, false⟩ ∧
    ∀ (f : FileLike) (fd : Nat), f.fdResult = some fd →
      realFhEnter freshFd (some f) = ⟨some f, false, false⟩ := by
  refine ⟨rfl, fun f fd h => ?_⟩
  simp [realFhEnter, h]

/-- Witness for C9 at a concrete OS backed stream. -/
theorem real_fh_pass_through_witness :
    (FileLike.mk (some 3) false).fdResult = some 3 ∧
    realFhEnter 7 (some ⟨some 3, false⟩) = ⟨some ⟨some 3, false⟩, false, false⟩ :=
  ⟨rfl, (real_fh_pass_through 7).2 ⟨some 3, false⟩ 3 rfl⟩

/-- C7: with shell mode and a string command on a non Windows platform,
the command is run by bash with errexit, nounset and pipefail set; with
shell mode and a non string command, a usage error is raised and no
subprocess is spawned. -/
theorem shell_mode_normalization :
    (∀ (s : String) (pwd : Option String),
      callCmd (Cmd.str s) pwd true false =
        Except.ok (Cmd.argv ["bash", "-c",
          "set -o errexit; set -o nounset; set -o pipefail; " ++ s], false,
          logRepr (Cmd.str s) pwd)) ∧
    (∀ (l : List String) (pwd : Option String) (osIsNt : Bool),
      callSpawn (Cmd.argv l) pwd true osIsNt =
        Except.error "cmd must be a string when shell=True") := by
  constructor
  · intro s pwd; rfl
  · intro l pwd osIsNt; rfl

/-- The locator output is a sublist of the process iterator. -/
theorem find_procs_sublist (curUser : String) (isWindows : Bool)
    (pats : List String) (procIter : List ProcInfo) :
    (findProcsByCmdline curUser isWindows pats procIter).Sublist procIter := by
  induction procIter with
  | nil => simp [findProcsByCmdline]
  | cons p rest ih =>
    rw [findProcsByCmdline]
    split
    · exact ih.cons p
    · split
      · exact ih.cons p
      · cases hfm : firstMatch (String.intercalate " " p.cmdline) pats with
        | some m => simpa [hfm] using ih.cons₂ p
        | none => simpa [hfm] using ih.cons p

/-- C10: the locator returns each process of the iterator at most once,
even when several patterns match its command line: the result is a sublist
of the iterator, so distinct input pids give distinct output pids. -/
theorem find_procs_no_duplicates (curUser : String) (isWindows : Bool)
    (pats : List String) (procIter : List ProcInfo) :
    (findProcsByCmdline curUser isWindows pats procIter).Sublist procIter ∧
    ((procIter.map ProcInfo.pid).Nodup →
      ((findProcsByCmdline curUser isWindows pats procIter).map ProcInfo.pid).Nodup) :=
  ⟨find_procs_sublist curUser isWindows pats procIter,
   fun h => h.sublist ((find_procs_sublist curUser isWindows pats procIter).map ProcInfo.pid)⟩

/-- Witness for C10: one process whose command line contains both given
patterns is returned exactly once. -/
theorem find_procs_no_duplicates_witness :
    (([⟨1, "u", ["foo", "bar"], true⟩] : List ProcInfo).map ProcInfo.pid).Nodup ∧
    ((findProcsByCmdline "u" false ["foo", "bar"]
        [⟨1, "u", ["foo", "bar"], true⟩]).map ProcInfo.pid).Nodup :=
  ⟨by decide,
   (find_procs_no_duplicates "u" false ["foo", "bar"]
      [⟨1, "u", ["foo", "bar"], true⟩]).2 (by decide)⟩

/-- C4 counterexample: the code subtracts the ignored ports from the
listening set before checking the requested port, so a requested port that
is also in ignore_ports is never matched even while the process listens on
it (the loop polls forever, against the claim and the docstring); without
the ignored port the same snapshot matches at once. -/
theorem wait_for_server_requested_port_ignored :
    (∀ n : Nat, waitForServerRun (some 80) [80]
        (List.replicate n [⟨80, "LISTEN"⟩]) = none) ∧
    waitForServerRun (some 80) [] [[⟨80, "LISTEN"⟩]] = some 80 := by
  constructor
  · intro n
    induction n with
    | zero => rfl
    | succ k ih => simpa [List.replicate_succ, waitForServerRun, waitStep] using ih
  · rfl

/-- Unfolding lemma for chains. -/
theorem isChain_cons {w : World} {p a : Nat} {rest : List Nat} :
    isChain w p (a :: rest) ↔ (a, some p) ∈ w.table ∧ isChain w a rest :=
  Iff.rfl

/-- Every ancestor is reached by a nonempty downward chain of parent links
whose last element is the descendant. -/
theorem isChain_ancestor {w : World} {p q : Nat} (h : IsAncestor w p q) :
    ∃ l : List Nat, isChain w p l ∧ l.getLast? = some q := by
  induction h with
  | direct hmem => exact ⟨[_], ⟨hmem, trivial⟩, rfl⟩
  | step hmem _ ih =>
    obtain ⟨l, hc, hl⟩ := ih
    refine ⟨_ :: l, ⟨hmem, hc⟩, ?_⟩
    cases l with
    | nil => simp at hl
    | cons a l2 => simpa [List.getLast?_cons_cons] using hl

/-- A chain is strictly increasing along any rank function that increases
along parent links. -/
theorem isChain_rankChain {w : World} {rank : Nat → Nat}
    (hrank : ∀ c pp, (c, some pp) ∈ w.table → rank pp < rank c) :
    ∀ {p : Nat} {l : List Nat}, isChain w p l →
      List.Chain (fun a b => rank a < rank b) p l := by
  intro p l
  induction l generalizing p with
  | nil => exact fun _ => List.Chain.nil
  | cons a rest ih => exact fun hc => List.Chain.cons (hrank a p hc.1) (ih hc.2)

/-- With a rank function increasing along parent links, a chain repeats no
pid. -/
theorem isChain_nodup {w : World} {rank : Nat → Nat}
    (hrank : ∀ c pp, (c, some pp) ∈ w.table → rank pp < rank c)
    {p : Nat} {l : List Nat} (hc : isChain w p l) : (p :: l).Nodup := by
  letI : IsTrans Nat (fun a b => rank a < rank b) :=
    ⟨fun _ _ _ h1 h2 => Nat.lt_trans h1 h2⟩
  have hpw := (isChain_rankChain hrank hc).pairwise
  exact hpw.imp fun hab heq => absurd (heq ▸ hab) (lt_irrefl _)

/-- Every element of a chain is a live pid. -/
theorem isChain_subset {w : World} :
    ∀ {p : Nat} {l : List Nat}, isChain w p l → ∀ a ∈ l, a ∈ livePids w := by
  intro p l
  induction l generalizing p with
  | nil => intro _ a ha; simp at ha
  | cons b rest ih =>
    intro hc a ha
    rcases List.mem_cons.mp ha with rfl | ha2
    · exact List.mem_map.mpr ⟨(a, some p), hc.1, rfl⟩
    · exact ih hc.2 a ha2

/-- Every element of a chain of length at most the fuel is found by the
descendant enumeration. -/
theorem isChain_mem_descendants {w : World} :
    ∀ {l : List Nat} {p fuel : Nat}, isChain w p l → l.length ≤ fuel →
      ∀ a ∈ l, a ∈ descendants w fuel p := by
  intro l
  induction l with
  | nil => intro p fuel _ _ a ha; simp at ha
  | cons b rest ih =>
    intro p fuel hc hlen a ha
    cases fuel with
    | zero => simp at hlen
    | succ f =>
      have hb : b ∈ childrenOf w p :=
        List.mem_map.mpr ⟨(b, some p), List.mem_filter.mpr ⟨hc.1, by simp⟩, rfl⟩
      rw [descendants]
      simp only [List.mem_append, List.mem_flatMap]
      rcases List.mem_cons.mp ha with rfl | ha2
      · exact Or.inl hb
      · exact Or.inr ⟨b, hb, ih hc.2 (by simp at hlen; omega) a ha2⟩

/-- A direct or transitive ancestor of the caller sees the caller among the
descendants computed with the fuel used by kill: the chain leading back
down to the caller has no repeats, hence is no longer than the process
table. -/
theorem ancestor_mem_descendants {w : World} {rank : Nat → Nat} {p : Nat}
    (hrank : ∀ c pp, (c, some pp) ∈ w.table → rank pp < rank c)
    (h : IsAncestor w p w.myPid) :
    w.myPid ∈ descendants w w.table.length p := by
  obtain ⟨l, hc, hlast⟩ := isChain_ancestor h
  have hnd : (p :: l).Nodup := isChain_nodup hrank hc
  have hlen : l.length ≤ w.table.length := by
    have hsp : l.Subperm (livePids w) :=
      List.subperm_of_subset (List.Nodup.of_cons hnd) (fun a ha => isChain_subset hc a ha)
    simpa [livePids] using hsp.length_le
  exact isChain_mem_descendants hc hlen _ (List.mem_of_mem_getLast? (by simp [hlast]))

/-- A handle kept by the filtering step is the inspected pid, differs from
the caller, and does not have the caller among its descendants. -/
theorem normStep_some {w : World} {p q : Nat}
    (h : (normStep w p).1 = some q) :
    q = p ∧ p ≠ w.myPid ∧ w.myPid ∉ descendants w w.table.length p := by
  unfold normStep at h
  split at h
  next h1 => simp at h
  next h1 =>
    split at h
    next h2 => simp at h
    next h2 =>
      split at h
      next h3 => simp at h
      next h3 => exact ⟨by simpa using h.symm, h1, h3⟩

/-- Inversion of the accumulation step on a successful result. -/
theorem consStep_ok {op : Option Nat} {logs1 : List LogEntry}
    {e : Except Unit (List Nat × List LogEntry)} {ps : List Nat}
    {nlogs : List LogEntry}
    (h : consStep op logs1 e = Except.ok (ps, nlogs)) :
    ∃ ps2 logs2, e = Except.ok (ps2, logs2) ∧ ps = op.toList ++ ps2 ∧
      nlogs = logs1 ++ logs2 := by
  cases e with
  | error e2 => simp [consStep] at h
  | ok pr =>
    obtain ⟨ps2, logs2⟩ := pr
    simp [consStep] at h
    exact ⟨ps2, logs2, rfl, h.1.symm, h.2.symm⟩

/-- The pid component of the accumulation step. -/
theorem consStep_map_fst (op : Option Nat) (logs1 : List LogEntry)
    (e : Except Unit (List Nat × List LogEntry)) :
    Except.map Prod.fst (consStep op logs1 e) = consPids op (Except.map Prod.fst e) := by
  cases e with
  | error e2 => rfl
  | ok pr => cases pr; rfl

/-- Keeping nothing leaves the pid list unchanged. -/
theorem consPids_none (e : Except Unit (List Nat)) : consPids none e = e := by
  cases e <;> simp [consPids]

/-- Every pid surviving normalization differs from the caller and does not
have the caller among its descendants. -/
theorem normalize_mem {w : World} :
    ∀ {args : List KillArg} {ps : List Nat} {nlogs : List LogEntry},
      normalize w args = Except.ok (ps, nlogs) → ∀ q ∈ ps,
        q ≠ w.myPid ∧ w.myPid ∉ descendants w w.table.length q := by
  intro args
  induction args with
  | nil =>
    intro ps nlogs h q hq
    rw [normalize] at h
    simp at h
    rcases h with ⟨rfl, rfl⟩
    simp at hq
  | cons a rest ih =>
    intro ps nlogs h q hq
    cases a with
    | invalid => rw [normalize] at h; simp at h
    | noneArg => rw [normalize] at h; exact ih h q hq
    | pid n =>
      rw [normalize] at h
      by_cases hl : livePid w n
      · rw [if_pos hl] at h
        obtain ⟨ps2, logs2, he, hps, _⟩ := consStep_ok h
        subst hps
        rcases List.mem_append.mp hq with hq1 | hq2
        · cases hop : (normStep w n).1 with
          | none => rw [hop] at hq1; simp at hq1
          | some x =>
            rw [hop] at hq1
            simp at hq1
            subst hq1
            obtain ⟨rfl, hne, hnd⟩ := normStep_some hop
            exact ⟨hne, hnd⟩
        · exact ih he q hq2
      · rw [if_neg hl] at h
        obtain ⟨ps2, logs2, he, hps, _⟩ := consStep_ok h
        subst hps
        exact ih he q (by simpa using hq)
    | proc p =>
      rw [normalize] at h
      obtain ⟨ps2, logs2, he, hps, _⟩ := consStep_ok h
      subst hps
      rcases List.mem_append.mp hq with hq1 | hq2
      · cases hop : (normStep w p).1 with
        | none => rw [hop] at hq1; simp at hq1
        | some x =>
          rw [hop] at hq1
          simp at hq1
          subst hq1
          obtain ⟨rfl, hne, hnd⟩ := normStep_some hop
          exact ⟨hne, hnd⟩
      · exact ih he q hq2

/-- A raw pid with no live process is silently dropped: the surviving pid
list is the one of the remaining arguments. -/
theorem normalize_dead_pid (w : World) (n : Nat) (hn : livePid w n = false) :
    ∀ pre post : List KillArg,
      Except.map Prod.fst (normalize w (pre ++ KillArg.pid n :: post)) =
      Except.map Prod.fst (normalize w (pre ++ post)) := by
  intro pre post
  induction pre with
  | nil => simp [normalize, hn, consStep_map_fst, consPids_none]
  | cons a pre ih =>
    cases a with
    | invalid => simp [normalize]
    | noneArg => simpa [normalize] using ih
    | pid m =>
      by_cases hm : livePid w m <;>
        simp [normalize, hm, consStep_map_fst, consPids_none, ih]
    | proc pp => simp [normalize, consStep_map_fst, ih]

/-- A None argument is silently dropped, with no effect on the result. -/
theorem normalize_skip_none (w : World) :
    ∀ pre post : List KillArg,
      normalize w (pre ++ KillArg.noneArg :: post) = normalize w (pre ++ post) := by
  intro pre post
  induction pre with
  | nil => simp [normalize]
  | cons a pre ih =>
    cases a with
    | invalid => simp [normalize]
    | noneArg => simpa [normalize] using ih
    | pid m => by_cases hm : livePid w m <;> simp [normalize, hm, ih]
    | proc pp => simp [normalize, ih]

/-- An argument of an invalid type makes normalization raise TypeError. -/
theorem normalize_invalid (w : World) :
    ∀ args : List KillArg, KillArg.invalid ∈ args →
      normalize w args = Except.error () := by
  intro args
  induction args with
  | nil => intro h; simp at h
  | cons a rest ih =>
    intro h
    cases a with
    | invalid => rfl
    | noneArg =>
      have h2 : KillArg.invalid ∈ rest := by simpa using h
      simpa [normalize] using ih h2
    | pid m =>
      have hr : normalize w rest = Except.error () := ih (by simpa using h)
      by_cases hm : livePid w m <;> simp [normalize, hm, hr, consStep]
    | proc pp =>
      have hr : normalize w rest = Except.error () := ih (by simpa using h)
      simp [normalize, hr, consStep]

/-- Normalization of a list of dead targets keeps no handle and logs each
skip at debug severity. -/
theorem normalize_dead (w : World) :
    ∀ args : List KillArg, (∀ a ∈ args, deadArg w a) →
      ∃ dlogs, normalize w args = Except.ok ([], dlogs) ∧
        ∀ l ∈ dlogs, ∃ m, l = LogEntry.debug m := by
  intro args
  induction args with
  | nil => exact fun _ => ⟨[], rfl, by simp⟩
  | cons a rest ih =>
    intro h
    obtain ⟨dlogs, hr, hdl⟩ := ih (fun x hx => h x (List.mem_cons_of_mem a hx))
    have ha := h a (List.mem_cons_self a rest)
    cases a with
    | invalid => exact absurd ha id
    | noneArg => exact ⟨dlogs, by simpa [normalize] using hr, hdl⟩
    | pid n =>
      have hn : livePid w n = false := ha
      refine ⟨LogEntry.debug (LogMsg.pidNotFound n) :: dlogs, ?_, ?_⟩
      · simp [normalize, hn, consStep, hr]
      · intro l hl
        rcases List.mem_cons.mp hl with rfl | hl2
        · exact ⟨_, rfl⟩
        · exact hdl l hl2
    | proc p =>
      obtain ⟨hlp, hne⟩ := ha
      have hstep : normStep w p = (none, [LogEntry.debug (LogMsg.pidNotFound p)]) := by
        simp [normStep, hne, hlp]
      refine ⟨LogEntry.debug (LogMsg.pidNotFound p) :: dlogs, ?_, ?_⟩
      · simp [normalize, hstep, consStep, hr]
      · intro l hl
        rcases List.mem_cons.mp hl with rfl | hl2
        · exact ⟨_, rfl⟩
        · exact hdl l hl2

/-- The SIGTERM events are exactly the collected handles, in order. -/
theorem termPhase_evs (w : World) (l : List Nat) :
    (termPhase w l).1 = ((termPhase w l).2.1).map Event.sigterm := by
  induction l with
  | nil => rfl
  | cons p rest ih => cases htr : w.termResult p <;> simp [termPhase, htr, ih]

/-- A handle collected by the SIGTERM loop comes from the input and
accepted the signal. -/
theorem termPhase_mem_acc (w : World) (l : List Nat) :
    ∀ p ∈ (termPhase w l).2.1, p ∈ l ∧ w.termResult p = SigResult.ok := by
  induction l with
  | nil => intro p hp; simp [termPhase] at hp
  | cons q rest ih =>
    intro p hp
    cases htr : w.termResult q <;> rw [termPhase] at hp <;> simp [htr] at hp
    · rcases hp with rfl | hp2
      · exact ⟨List.mem_cons_self p rest, htr⟩
      · exact ⟨List.mem_cons_of_mem q (ih p hp2).1, (ih p hp2).2⟩
    · exact ⟨List.mem_cons_of_mem q (ih p hp).1, (ih p hp).2⟩
    · exact ⟨List.mem_cons_of_mem q (ih p hp).1, (ih p hp).2⟩

/-- The SIGKILL events are the sigkill signals of a subset of the input. -/
theorem killPhase_shape (w : World) (l : List Nat) :
    ∃ kl : List Nat, (killPhase w l).1 = kl.map Event.sigkill ∧
      ∀ p ∈ kl, p ∈ l := by
  induction l with
  | nil => exact ⟨[], rfl, by simp⟩
  | cons q rest ih =>
    obtain ⟨kl, hkl, hsub⟩ := ih
    cases htr : w.killResult q
    · exact ⟨q :: kl, by simp [killPhase, htr, hkl],
        fun p hp => by
          rcases List.mem_cons.mp hp with rfl | hp2
          · exact List.mem_cons_self p rest
          · exact List.mem_cons_of_mem q (hsub p hp2)⟩
    · exact ⟨kl, by simp [killPhase, htr, hkl],
        fun p hp => List.mem_cons_of_mem q (hsub p hp)⟩
    · exact ⟨kl, by simp [killPhase, htr, hkl],
        fun p hp => List.mem_cons_of_mem q (hsub p hp)⟩

/-- When every kill signal is accepted, the SIGKILL loop signals exactly
the input, in order. -/
theorem killPhase_all_ok (w : World) (l : List Nat)
    (h : ∀ p ∈ l, w.killResult p = SigResult.ok) :
    killPhase w l = (l.map Event.sigkill, []) := by
  induction l with
  | nil => rfl
  | cons p rest ih =>
    have hp := h p (List.mem_cons_self p rest)
    simp [killPhase, hp, ih (fun q hq => h q (List.mem_cons_of_mem p hq))]

/-- The kill list of the graceful phase is a subset of the normalized
handles. -/
theorem gracePhase_sub (w : World) (t : Nat) (ps : List Nat) :
    ∀ p ∈ (gracePhase w t ps).2.1, p ∈ ps := by
  intro p hp
  by_cases ht : t = 0
  · simpa [gracePhase, ht] using hp
  · rw [gracePhase, if_neg ht] at hp
    simp only at hp
    have := List.mem_filter.mp hp
    exact (termPhase_mem_acc w ps p this.1).1

/-- Every event of the graceful phase is the wait or a SIGTERM of a
normalized handle. -/
theorem gracePhase_evs (w : World) (t : Nat) (ps : List Nat) :
    ∀ e ∈ (gracePhase w t ps).1,
      e = Event.wait ∨ ∃ p ∈ ps, e = Event.sigterm p := by
  intro e he
  by_cases ht : t = 0
  · simp [gracePhase, ht] at he
  · rw [gracePhase, if_neg ht] at he
    simp only at he
    rcases List.mem_append.mp he with he1 | he2
    · rw [termPhase_evs] at he1
      obtain ⟨p, hp, rfl⟩ := List.mem_map.mp he1
      exact Or.inr ⟨p, (termPhase_mem_acc w ps p hp).1, rfl⟩
    · simp at he2
      exact Or.inl he2

/-- Every event of the forceful phase is a SIGKILL of one of its input
handles. -/
theorem forcePhase_evs (w : World) (ps : List Nat) :
    ∀ e ∈ (forcePhase w ps).1, ∃ p ∈ ps, e = Event.sigkill p := by
  intro e he
  by_cases hps : ps.isEmpty
  · simp [forcePhase, hps] at he
  · rw [forcePhase, if_neg hps] at he
    simp only at he
    obtain ⟨kl, hkl, hsub⟩ := killPhase_shape w ps
    rw [hkl] at he
    obtain ⟨p, hp, rfl⟩ := List.mem_map.mp he
    exact ⟨p, hsub p hp, rfl⟩

/-- Every signal event of a kill run targets a pid that survived
normalization. -/
theorem killRun_event_pid {w : World} {t : Nat} {args : List KillArg}
    {ps : List Nat} {nlogs : List LogEntry} {tr : List Event}
    {logs : List LogEntry} {q : Nat}
    (hn : normalize w args = Except.ok (ps, nlogs))
    (hrun : killRun w t args = Except.ok (tr, logs))
    (hq : Event.sigterm q ∈ tr ∨ Event.sigkill q ∈ tr) : q ∈ ps := by
  simp only [killRun, hn] at hrun
  by_cases hps : ps.isEmpty
  · rw [if_pos hps] at hrun
    simp at hrun
    rcases hrun with ⟨rfl, rfl⟩
    rcases hq with h | h <;> simp at h
  · rw [if_neg hps] at hrun
    simp at hrun
    obtain ⟨htr, _⟩ := hrun
    subst htr
    rcases hq with h | h <;> rcases List.mem_append.mp h with h1 | h1
    · rcases gracePhase_evs w t ps _ h1 with h2 | ⟨p, hp, h2⟩
      · simp at h2
      · obtain rfl : q = p := by simpa using h2
        exact hp
    · obtain ⟨p, hp, h2⟩ := forcePhase_evs w _ _ h1
      simp at h2
    · rcases gracePhase_evs w t ps _ h1 with h2 | ⟨p, hp, h2⟩
      · simp at h2
      · simp at h2
    · obtain ⟨p, hp, h2⟩ := forcePhase_evs w _ _ h1
      obtain rfl : q = p := by simpa using h2
      exact gracePhase_sub w t ps _ hp

/-- C1: kill never signals, gracefully or forcefully, the calling process
or a direct or transitive ancestor of the calling process (the table is
acyclic, witnessed by a rank function increasing along parent links). -/
theorem kill_never_signals_self_or_ancestor
    (w : World) (t : Nat) (args : List KillArg) (p : Nat) (rank : Nat → Nat)
    (tr : List Event) (logs : List LogEntry)
    (hrank : ∀ c pp, (c, some pp) ∈ w.table → rank pp < rank c)
    (hp : p = w.myPid ∨ IsAncestor w p w.myPid)
    (hrun : killRun w t args = Except.ok (tr, logs)) :
    Event.sigterm p ∉ tr ∧ Event.sigkill p ∉ tr := by
  have hex : ∃ ps nlogs, normalize w args = Except.ok (ps, nlogs) := by
    rw [killRun] at hrun
    cases hn : normalize w args with
    | error e => rw [hn] at hrun; simp at hrun
    | ok pr =>
      obtain ⟨ps, nlogs⟩ := pr
      exact ⟨ps, nlogs, rfl⟩
  obtain ⟨ps, nlogs, hn⟩ := hex
  constructor <;> intro hmem
  · have hq := killRun_event_pid hn hrun (Or.inl hmem)
    have h2 := normalize_mem hn p hq
    rcases hp with rfl | hanc
    · exact h2.1 rfl
    · exact h2.2 (ancestor_mem_descendants hrank hanc)
  · have hq := killRun_event_pid hn hrun (Or.inr hmem)
    have h2 := normalize_mem hn p hq
    rcases hp with rfl | hanc
    · exact h2.1 rfl
    · exact h2.2 (ancestor_mem_descendants hrank hanc)

/-- Witness for C1: in the demo world, killing the parent (pid 1) of the
caller together with the unrelated pid 7 signals only pid 7. -/
theorem kill_never_signals_self_or_ancestor_witness :
    Event.sigterm 1 ∉ [Event.sigterm 7, Event.wait, Event.sigkill 7] ∧
    Event.sigkill 1 ∉ [Event.sigterm 7, Event.wait, Event.sigkill 7] :=
  kill_never_signals_self_or_ancestor demoWorld 5 [KillArg.proc 1, KillArg.proc 7]
    1 id [Event.sigterm 7, Event.wait, Event.sigkill 7]
    [LogEntry.debug (LogMsg.skipParent 1), LogEntry.info LogMsg.sigtermSending,
     LogEntry.info LogMsg.sigkillSending, LogEntry.info LogMsg.allTerminated]
    (by
      intro c pp h
      simp [demoWorld] at h
      rcases h with ⟨rfl, rfl⟩ | ⟨rfl, rfl⟩ <;> decide)
    (Or.inr (IsAncestor.direct (by decide)))
    (by rfl)

/-- C3: with a positive grace period, the trace of one kill run is all the
graceful signals, then the grace period wait, then the forceful signals:
every SIGTERM precedes every SIGKILL, a SIGKILL goes only to handles that
accepted the SIGTERM and were still alive after the wait, and the run ends
with the forceful signals without further waiting. -/
theorem kill_escalation_order
    (w : World) (t : Nat) (args : List KillArg) (ps : List Nat)
    (nlogs : List LogEntry) (tr : List Event) (logs : List LogEntry)
    (ht : t ≠ 0)
    (hn : normalize w args = Except.ok (ps, nlogs))
    (hne : ps ≠ [])
    (hrun : killRun w t args = Except.ok (tr, logs)) :
    ∃ terms kills : List Nat,
      tr = terms.map Event.sigterm ++ Event.wait :: kills.map Event.sigkill ∧
      ∀ p ∈ kills, w.termResult p = SigResult.ok ∧ w.aliveAfterWait p = true := by
  have hps : ¬ ps.isEmpty = true := by simpa [List.isEmpty_iff] using hne
  simp only [killRun, hn, if_neg hps] at hrun
  simp at hrun
  obtain ⟨htr, _⟩ := hrun
  subst htr
  have hg1 : (gracePhase w t ps).1 =
      ((termPhase w ps).2.1).map Event.sigterm ++ [Event.wait] := by
    rw [gracePhase, if_neg ht, termPhase_evs]
  have hK : (gracePhase w t ps).2.1 =
      ((termPhase w ps).2.1).filter (fun p => w.aliveAfterWait p) := by
    rw [gracePhase, if_neg ht]
  obtain ⟨kl, hkl, hklsub⟩ := killPhase_shape w (gracePhase w t ps).2.1
  by_cases hKe : (gracePhase w t ps).2.1.isEmpty
  · refine ⟨(termPhase w ps).2.1, [], ?_, by simp⟩
    rw [hg1, forcePhase, if_pos hKe]
    simp
  · refine ⟨(termPhase w ps).2.1, kl, ?_, ?_⟩
    · rw [hg1, forcePhase, if_neg hKe]
      simp [hkl]
    · intro p hp
      have hpK := hklsub p hp
      rw [hK] at hpK
      have h2 := List.mem_filter.mp hpK
      exact ⟨(termPhase_mem_acc w ps p h2.1).2, h2.2⟩

/-- Witness for C3 on the demo world: killing the unrelated live pid 7
with a positive grace period produces sigterm, wait, sigkill in order. -/
theorem kill_escalation_order_witness :
    (5 : Nat) ≠ 0 ∧
    normalize demoWorld [KillArg.proc 7] = Except.ok ([7], []) ∧
    ([7] : List Nat) ≠ [] ∧
    ∃ terms kills : List Nat,
      [Event.sigterm 7, Event.wait, Event.sigkill 7] =
        terms.map Event.sigterm ++ Event.wait :: kills.map Event.sigkill ∧
      ∀ p ∈ kills, demoWorld.termResult p = SigResult.ok ∧
        demoWorld.aliveAfterWait p = true :=
  ⟨by decide, by rfl, by decide,
   kill_escalation_order demoWorld 5 [KillArg.proc 7] [7] []
     [Event.sigterm 7, Event.wait, Event.sigkill 7]
     [LogEntry.info LogMsg.sigtermSending, LogEntry.info LogMsg.sigkillSending,
      LogEntry.info LogMsg.allTerminated]
     (by decide) (by rfl) (by decide) (by rfl)⟩

/-- C5: with a zero grace period the graceful phase is skipped entirely
(no SIGTERM event and no wait in the trace) and SIGKILL is issued to every
handle surviving normalization and filtering (here under an environment
that accepts every kill signal). -/
theorem kill_zero_grace (w : World) (args : List KillArg) (ps : List Nat)
    (nlogs : List LogEntry)
    (hn : normalize w args = Except.ok (ps, nlogs))
    (hok : ∀ p ∈ ps, w.killResult p = SigResult.ok) :
    ∃ logs, killRun w 0 args = Except.ok (ps.map Event.sigkill, logs) ∧
      (∀ q : Nat, Event.sigterm q ∉ ps.map Event.sigkill) ∧
      Event.wait ∉ ps.map Event.sigkill := by
  have hside : (∀ q : Nat, Event.sigterm q ∉ ps.map Event.sigkill) ∧
      Event.wait ∉ ps.map Event.sigkill := by
    constructor
    · intro q hm
      obtain ⟨p, _, h2⟩ := List.mem_map.mp hm
      simp at h2
    · intro hm
      obtain ⟨p, _, h2⟩ := List.mem_map.mp hm
      simp at h2
  simp only [killRun, hn]
  by_cases hps : ps.isEmpty
  · obtain rfl : ps = [] := by simpa [List.isEmpty_iff] using hps
    exact ⟨nlogs ++ [LogEntry.info LogMsg.noProcsTerminated], by simp, hside⟩
  · rw [if_neg hps]
    have hg : gracePhase w 0 ps = ([], ps, []) := by rw [gracePhase, if_pos rfl]
    have hf : (forcePhase w ps).1 = ps.map Event.sigkill := by
      rw [forcePhase, if_neg hps, killPhase_all_ok w ps hok]
    refine ⟨nlogs ++ (gracePhase w 0 ps).2.2
        ++ (forcePhase w (gracePhase w 0 ps).2.1).2
        ++ [LogEntry.info LogMsg.allTerminated], ?_, hside⟩
    simp [hg, hf]

/-- Witness for C5 on the demo world: with a zero grace period pid 7 is
sigkilled at once, with no sigterm and no wait. -/
theorem kill_zero_grace_witness :
    normalize demoWorld [KillArg.proc 7] = Except.ok ([7], []) ∧
    (∀ p ∈ ([7] : List Nat), demoWorld.killResult p = SigResult.ok) ∧
    ∃ logs, killRun demoWorld 0 [KillArg.proc 7] =
        Except.ok (([7] : List Nat).map Event.sigkill, logs) ∧
      (∀ q : Nat, Event.sigterm q ∉ ([7] : List Nat).map Event.sigkill) ∧
      Event.wait ∉ ([7] : List Nat).map Event.sigkill :=
  ⟨by rfl, by decide,
   kill_zero_grace demoWorld [KillArg.proc 7] [7] [] (by rfl) (by decide)⟩

/-- C6: an int pid with no live process is silently dropped (same surviving
pids as without it), a None argument is silently dropped (same result
altogether), and any argument of another type makes the whole call raise
TypeError during normalization, with no signalling event produced. -/
theorem kill_input_normalization (w : World) :
    (∀ (n : Nat) (pre post : List KillArg), livePid w n = false →
      Except.map Prod.fst (normalize w (pre ++ KillArg.pid n :: post)) =
      Except.map Prod.fst (normalize w (pre ++ post))) ∧
    (∀ pre post : List KillArg,
      normalize w (pre ++ KillArg.noneArg :: post) = normalize w (pre ++ post)) ∧
    (∀ (t : Nat) (args : List KillArg), KillArg.invalid ∈ args →
      killRun w t args = Except.error ()) := by
  refine ⟨fun n pre post hn => normalize_dead_pid w n hn pre post,
    normalize_skip_none w, fun t args h => ?_⟩
  rw [killRun, normalize_invalid w args h]

/-- Witness for C6 on the demo world: pid 99 is dead and dropped, None is
dropped, and an invalid argument makes the call raise with no trace. -/
theorem kill_input_normalization_witness :
    (livePid demoWorld 99 = false ∧
      Except.map Prod.fst (normalize demoWorld
        ([KillArg.proc 7] ++ KillArg.pid 99 :: [])) =
      Except.map Prod.fst (normalize demoWorld ([KillArg.proc 7] ++ []))) ∧
    normalize demoWorld ([] ++ KillArg.noneArg :: [KillArg.proc 7]) =
      normalize demoWorld ([] ++ [KillArg.proc 7]) ∧
    (KillArg.invalid ∈ [KillArg.pid 7, KillArg.invalid] ∧
      killRun demoWorld 3 [KillArg.pid 7, KillArg.invalid] = Except.error ()) :=
  ⟨⟨rfl, (kill_input_normalization demoWorld).1 99 [KillArg.proc 7] [] rfl⟩,
   (kill_input_normalization demoWorld).2.1 [] [KillArg.proc 7],
   ⟨by decide, (kill_input_normalization demoWorld).2.2 3
      [KillArg.pid 7, KillArg.invalid] (by decide)⟩⟩

/-- C8: a second kill on a set of handles whose processes have all exited
is a no-op that does not raise: every dead target is skipped during
normalization with a debug severity log, no signal is sent, and the call
returns normally. -/
theorem kill_idempotent_on_dead (w : World) (t : Nat) (args : List KillArg)
    (h : ∀ a ∈ args, deadArg w a) :
    ∃ dlogs, killRun w t args =
        Except.ok ([], dlogs ++ [LogEntry.info LogMsg.noProcsTerminated]) ∧
      ∀ l ∈ dlogs, ∃ m, l = LogEntry.debug m := by
  obtain ⟨dlogs, hr, hdl⟩ := normalize_dead w args h
  exact ⟨dlogs, by simp [killRun, hr], hdl⟩

/-- Witness for C8 on the demo world: a dead raw pid, a dead handle and a
None argument give an empty trace and only debug skip logs. -/
theorem kill_idempotent_on_dead_witness :
    (∀ a ∈ [KillArg.pid 99, KillArg.proc 42, KillArg.noneArg],
      deadArg demoWorld a) ∧
    ∃ dlogs, killRun demoWorld 10 [KillArg.pid 99, KillArg.proc 42, KillArg.noneArg] =
        Except.ok ([], dlogs ++ [LogEntry.info LogMsg.noProcsTerminated]) ∧
      ∀ l ∈ dlogs, ∃ m, l = LogEntry.debug m := by
  have hdead : ∀ a ∈ [KillArg.pid 99, KillArg.proc 42, KillArg.noneArg],
      deadArg demoWorld a := by
    intro a ha
    rcases List.mem_cons.mp ha with rfl | ha2
    · show livePid demoWorld 99 = false
      decide
    rcases List.mem_cons.mp ha2 with rfl | ha3
    · show livePid demoWorld 42 = false ∧ 42 ≠ demoWorld.myPid
      exact ⟨by decide, by decide⟩
    rcases List.mem_cons.mp ha3 with rfl | ha4
    · trivial
    · simp at ha4
  exact ⟨hdead,
    kill_idempotent_on_dead demoWorld 10
      [KillArg.pid 99, KillArg.proc 42, KillArg.noneArg] hdead⟩

end Pshell
